import Mathlib

/-!
Shallow embedding of the `StreamRenderer` component of this repository
(`src/js/streamRenderer.js`, and its typed twin in `src/unnamed/part_000`).
Strings are modelled as `List Char`; DOM writes and the `onUpdate` /
`onComplete` / `console.warn` callbacks are modelled as an emitted event
trace; the `requestAnimationFrame` loop is modelled by an explicit step
relation in which a `frame` step fires the render callback whenever one is
scheduled (`rafId` set).
-/

/-! ### The default sanitizer

Source (`streamRenderer.js`, lines 72-75):
`return text.replace(/[\r\n]+[-=]{3,}[\r\n]*$/g, '').trim();`

The regex is anchored at the end of the string, so `replace` removes the
leftmost (hence longest) suffix of the form: a nonempty run of line-break
characters, then three or more `-`/`=` characters, then an optional run of
line-break characters. `String.prototype.trim` then removes ECMAScript
whitespace and line terminators from both ends.
-/

/-- Characters matched by the regex class `[\r\n]`. -/
def isNlChar (c : Char) : Bool := c == '\r' || c == '\n'

/-- Characters matched by the regex class `[-=]`. -/
def isSepChar (c : Char) : Bool := c == '-' || c == '='

/-- ECMAScript WhiteSpace and LineTerminator code points, the set removed by
`String.prototype.trim`. -/
def isJsWsChar (c : Char) : Bool :=
  c == ' ' || c == '\t' || c == '\n' || c == '\r' ||
  c == '\x0b' || c == '\x0c' || c == '\u00A0' || c == '\uFEFF' ||
  c == '\u1680' || ('\u2000' ≤ c && c ≤ '\u200A') ||
  c == '\u2028' || c == '\u2029' || c == '\u202F' || c == '\u205F' ||
  c == '\u3000'

/-- Whether a list of characters is, in its entirety, a match of the regex
`[\r\n]+[-=]{3,}[\r\n]*`.  Because the three character classes are pairwise
disjoint at the class boundaries, a string is in the regex language iff its
maximal leading `[\r\n]` run is nonempty, the following maximal `[-=]` run
has length at least three, and the remainder is all `[\r\n]`. -/
def sepSuffixMatch (l : List Char) : Bool :=
  !(l.takeWhile isNlChar).isEmpty
    && decide (3 ≤ ((l.dropWhile isNlChar).takeWhile isSepChar).length)
    && ((l.dropWhile isNlChar).dropWhile isSepChar).all isNlChar

/-- Model of `text.replace(/[\r\n]+[-=]{3,}[\r\n]*$/g, '')`: remove the suffix that is
the leftmost-starting match of the end-anchored regex (a single replacement,
since the match extends to the end of the string). -/
def stripTrailingRule : List Char → List Char
  | [] => []
  | c :: rest =>
    if sepSuffixMatch (c :: rest) then [] else c :: stripTrailingRule rest

/-- Model of `String.prototype.trim`: drop ECMAScript whitespace from both ends. -/
def jsTrim (l : List Char) : List Char :=
  ((l.reverse.dropWhile isJsWsChar).reverse).dropWhile isJsWsChar

/-- Model of `defaultSanitize` (`streamRenderer.js` lines 72-75): strip the trailing
separator rule, then trim. -/
def defaultSanitize (l : List Char) : List Char :=
  jsTrim (stripTrailingRule l)

/-! ### The renderer state machine

Fields and operations are named after the source.  `rafId` is the handle of
the currently scheduled animation-frame callback (if any), with fresh handles
drawn from `rafCounter`.  The DOM side carries the content of the owned text
node (when the presenter holds one) and the content last written into the
container through `innerHTML` / `textContent`.
-/

/-- Content of the container as last written: via `innerHTML` (markup) or via
`textContent` (plain text). -/
inductive DomContent
  | htmlMarkup (markup : List Char)
  | plainText (text : List Char)
deriving DecidableEq

/-- Observable effects: DOM writes, callbacks, diagnostics
(`StreamRendererOptions.onUpdate`, `onComplete`, `console.warn`). -/
inductive Event
  | update (text : List Char)
  | complete (text : List Char)
  | warnLateChunk
  | warnParseError
  | renderText (text : List Char)
  | renderHTML (markup : List Char)
  | renderFallback (text : List Char)
deriving DecidableEq

/-- The recognized constructor options (`StreamRendererOptions`), with the
callbacks modelled as events rather than stored functions.  The markdown
render function may throw, hence `Except`. -/
structure StreamRendererOptions where
  useTextNode : Bool
  sanitize : List Char → List Char
  markdownParser : List Char → Except (List Char) (List Char)

/-- The default option values filled in by the constructor:
`useTextNode: true`, `sanitize: defaultSanitize`, identity parser. -/
def defaultOptions : StreamRendererOptions where
  useTextNode := true
  sanitize := fun t => defaultSanitize t
  markdownParser := fun t => Except.ok t

/-- The mutable fields of a `StreamRenderer` instance, together with its
(immutable after construction) options and the owned DOM surface. -/
structure StreamRenderer where
  textBuffer : List Char
  lastRenderedText : List Char
  rafId : Option Nat
  isFinished : Bool
  textNode : Option (List Char)
  container : DomContent
  options : StreamRendererOptions
  rafCounter : Nat

/-- Model of `initializeContainer`: clear the container, and in text mode create the
single reusable empty text node and append it. -/
def initializeContainer (s : StreamRenderer) : StreamRenderer :=
  let s1 := { s with container := DomContent.htmlMarkup [] }
  if s1.options.useTextNode then { s1 with textNode := some [] } else s1

/-- Model of `requestAnimationFrame(render)`: record a fresh scheduled-callback
handle. -/
def startRenderLoop (s : StreamRenderer) : StreamRenderer :=
  { s with rafId := some s.rafCounter, rafCounter := s.rafCounter + 1 }

/-- The constructor `new StreamRenderer(container, options)`: empty buffers,
no scheduled frame yet, no text node yet; then `initializeContainer` and
`startRenderLoop`. -/
def mkStreamRenderer (opts : StreamRendererOptions) : StreamRenderer :=
  startRenderLoop (initializeContainer
    { textBuffer := []
      lastRenderedText := []
      rafId := none
      isFinished := false
      textNode := none
      container := DomContent.htmlMarkup []
      options := opts
      rafCounter := 0 })

/-- Model of `renderToDOM`: text-node fast path when `useTextNode` and the node is
held; otherwise parse markdown and set `innerHTML`, falling back to
`textContent` with a `console.warn` when the parser throws. -/
def renderToDOM (s : StreamRenderer) : StreamRenderer × List Event :=
  if s.options.useTextNode && s.textNode.isSome then
    ({ s with textNode := some s.textBuffer }, [Event.renderText s.textBuffer])
  else
    match s.options.markdownParser s.textBuffer with
    | Except.ok parsed =>
        ({ s with container := DomContent.htmlMarkup parsed },
         [Event.renderHTML parsed])
    | Except.error _ =>
        ({ s with container := DomContent.plainText s.textBuffer },
         [Event.warnParseError, Event.renderFallback s.textBuffer])

/-- Model of `cleanup`: cancel any pending animation frame, then invoke
`onComplete(this.textBuffer)`. -/
def cleanup (s : StreamRenderer) : StreamRenderer × List Event :=
  let s1 := if s.rafId.isSome then { s with rafId := none } else s
  (s1, [Event.complete s1.textBuffer])

/-- One invocation of the `render` closure installed by `startRenderLoop`:
render and call `onUpdate` if the buffer changed, then either reschedule
(not finished) or perform the final render and `cleanup` (finished). -/
def renderFrame (s : StreamRenderer) : StreamRenderer × List Event :=
  let b :=
    if s.textBuffer ≠ s.lastRenderedText then
      let r := renderToDOM s
      ({ r.1 with lastRenderedText := r.1.textBuffer },
       r.2 ++ [Event.update r.1.textBuffer])
    else (s, [])
  if !b.1.isFinished then
    ({ b.1 with rafId := some b.1.rafCounter, rafCounter := b.1.rafCounter + 1 },
     b.2)
  else
    let r2 := renderToDOM b.1
    let r3 := cleanup r2.1
    (r3.1, b.2 ++ r2.2 ++ r3.2)

/-- Model of `appendChunk(chunk)`: warn and ignore after `finish`, else concatenate
onto the buffer.  No DOM mutation. -/
def appendChunk (chunk : List Char) (s : StreamRenderer) :
    StreamRenderer × List Event :=
  if s.isFinished then (s, [Event.warnLateChunk])
  else ({ s with textBuffer := s.textBuffer ++ chunk }, [])

/-- Model of `finish()`: no-op when already finished; otherwise mark finished and
apply the sanitizer to the buffer exactly once.  The render loop performs the
final render and cleanup. -/
def finish (s : StreamRenderer) : StreamRenderer × List Event :=
  if s.isFinished then (s, [])
  else ({ s with isFinished := true,
                 textBuffer := s.options.sanitize s.textBuffer }, [])

/-- Model of `getCurrentText()`: the current buffered text. -/
def getCurrentText (s : StreamRenderer) : List Char := s.textBuffer

/-- Model of `reset()`: cancel the loop, clear buffers and the finished flag,
reinitialize the container, restart the loop. -/
def reset (s : StreamRenderer) : StreamRenderer :=
  let s1 := if s.rafId.isSome then { s with rafId := none } else s
  let s2 := { s1 with textBuffer := [], lastRenderedText := [],
                      isFinished := false }
  startRenderLoop (initializeContainer s2)

/-- Model of `destroy()`: cancel the loop, drop the text-node reference, force the
finished flag; `onComplete` is not invoked. -/
def destroy (s : StreamRenderer) : StreamRenderer :=
  let s1 := if s.rafId.isSome then { s with rafId := none } else s
  { s1 with textNode := none, isFinished := true }

/-! ### Interaction traces

A run interleaves caller operations with firings of the scheduled
animation-frame callback.  A `frame` step fires the callback only when one is
scheduled (`rafId` set); after `cancelAnimationFrame` the callback can no
longer fire. -/

/-- One step of an interaction with a presenter instance. -/
inductive Step
  | append (chunk : List Char)
  | finish
  | frame
  | destroy
  | reset
deriving DecidableEq

/-- Execute one step. -/
def stepRun (s : StreamRenderer) : Step → StreamRenderer × List Event
  | Step.append c => appendChunk c s
  | Step.finish => finish s
  | Step.frame =>
    match s.rafId with
    | none => (s, [])
    | some _ => renderFrame s
  | Step.destroy => (destroy s, [])
  | Step.reset => (reset s, [])

/-- Execute a list of steps, accumulating the emitted events. -/
def run : StreamRenderer → List Step → StreamRenderer × List Event
  | s, [] => (s, [])
  | s, st :: rest =>
    let r1 := stepRun s st
    let r2 := run r1.1 rest
    (r2.1, r1.2 ++ r2.2)

/-! ### Trace observations -/

/-- The arguments of the `onComplete` invocations in a trace, in order. -/
def completeTexts : List Event → List (List Char)
  | [] => []
  | Event.complete t :: rest => t :: completeTexts rest
  | _ :: rest => completeTexts rest

/-- How many times `onComplete` was invoked. -/
def countComplete (ev : List Event) : Nat := (completeTexts ev).length

/-- The arguments of the `onUpdate` invocations in a trace, in order. -/
def updateTexts : List Event → List (List Char)
  | [] => []
  | Event.update t :: rest => t :: updateTexts rest
  | _ :: rest => updateTexts rest

/-- How many DOM renders (text-node write, `innerHTML` write, or plain-text
fallback write) a trace contains. -/
def countRender : List Event → Nat
  | [] => 0
  | Event.renderText _ :: rest => countRender rest + 1
  | Event.renderHTML _ :: rest => countRender rest + 1
  | Event.renderFallback _ :: rest => countRender rest + 1
  | _ :: rest => countRender rest

/-- The display surface of `s` shows (the rendering of) text `t`: in
text-node mode the node holds `t`; otherwise the container holds the parsed
markup of `t`, or `t` as plain text when the parser fails on it. -/
def displayShows (s : StreamRenderer) (t : List Char) : Prop :=
  if s.options.useTextNode && s.textNode.isSome then s.textNode = some t
  else
    match s.options.markdownParser t with
    | Except.ok m => s.container = DomContent.htmlMarkup m
    | Except.error _ => s.container = DomContent.plainText t

/-- The chunks carried by the `append` steps of a step list, in order. -/
def appendedChunks : List Step → List (List Char)
  | [] => []
  | Step.append c :: rest => c :: appendedChunks rest
  | _ :: rest => appendedChunks rest

/-- Auxiliary: remove a trailing run of `[\r\n]` characters (the amount by
which the leftmost-starting regex match can reach back into the text before
the separator run). -/
def rtrimNl (l : List Char) : List Char :=
  (l.reverse.dropWhile isNlChar).reverse

/-- Options of a `createMarkdownStreamRenderer` instance whose markdown
parser always throws (models `marked.parse` failing on incomplete markup). -/
def mdErrorOptions : StreamRendererOptions where
  useTextNode := false
  sanitize := fun t => defaultSanitize t
  markdownParser := fun _ => Except.error ("parse error".toList)

/-- A sample mid-stream state in markdown mode, as reached after one chunk of
not-yet-parseable markup. -/
def mdErrorState : StreamRenderer :=
  (run (mkStreamRenderer mdErrorOptions)
    [Step.append ("partial [link](unterminated".toList)]).1

example : defaultSanitize ("A\n---\n".toList) = "A".toList := by decide
example : defaultSanitize ("A---".toList) = "A---".toList := by decide
example : defaultSanitize ("A\n---\n---".toList) = "A\n---".toList := by decide
example : defaultSanitize ("A\n-=-".toList) = "A".toList := by decide
example : defaultSanitize ("  A\n\r\n====\r\n".toList) = "A".toList := by decide
example : defaultSanitize ("  A\n\r\n====\r\n ".toList) = "A\n\r\n====".toList := by
  decide

/-! ### List lemmas about `takeWhile` / `dropWhile` -/

theorem takeWhile_append_all {p : Char → Bool} :
    ∀ {u : List Char} (m : List Char), u.all p = true →
      (u ++ m).takeWhile p = u ++ m.takeWhile p := by
  intro u
  induction u with
  | nil => intro m _; simp
  | cons a u ih =>
    intro m h
    simp only [List.all_cons, Bool.and_eq_true] at h
    simp [List.takeWhile_cons, h.1, ih m h.2]

theorem dropWhile_append_all {p : Char → Bool} :
    ∀ {u : List Char} (m : List Char), u.all p = true →
      (u ++ m).dropWhile p = m.dropWhile p := by
  intro u
  induction u with
  | nil => intro m _; simp
  | cons a u ih =>
    intro m h
    simp only [List.all_cons, Bool.and_eq_true] at h
    simp [List.dropWhile_cons, h.1, ih m h.2]

theorem takeWhile_append_neg {p : Char → Bool} {c : Char} (hc : p c = false) :
    ∀ (u v : List Char), (u ++ c :: v).takeWhile p = u.takeWhile p := by
  intro u
  induction u with
  | nil => intro v; simp [List.takeWhile_cons, hc]
  | cons a u ih =>
    intro v
    by_cases ha : p a = true
    · simp [List.takeWhile_cons, ha, ih v]
    · simp [List.takeWhile_cons, Bool.eq_false_iff.mpr ha]

theorem dropWhile_append_neg {p : Char → Bool} {c : Char} (hc : p c = false) :
    ∀ (u v : List Char), (u ++ c :: v).dropWhile p = u.dropWhile p ++ c :: v := by
  intro u
  induction u with
  | nil => intro v; simp [List.dropWhile_cons, hc]
  | cons a u ih =>
    intro v
    by_cases ha : p a = true
    · simp [List.dropWhile_cons, ha, ih v]
    · simp [List.dropWhile_cons, Bool.eq_false_iff.mpr ha]

theorem dropWhile_all_nil {p : Char → Bool} :
    ∀ {u : List Char}, u.all p = true → u.dropWhile p = [] := by
  intro u
  induction u with
  | nil => intro _; rfl
  | cons a u ih =>
    intro h
    simp only [List.all_cons, Bool.and_eq_true] at h
    simp [List.dropWhile_cons, h.1, ih h.2]

theorem all_dropWhile {p q : Char → Bool} :
    ∀ {u : List Char}, u.all p = true → (u.dropWhile q).all p = true := by
  intro u
  induction u with
  | nil => intro _; rfl
  | cons a u ih =>
    intro h
    simp only [List.all_cons, Bool.and_eq_true] at h
    by_cases ha : q a = true
    · simp [List.dropWhile_cons, ha, ih h.2]
    · simp [List.dropWhile_cons, Bool.eq_false_iff.mpr ha, List.all_cons, h.1, h.2]

theorem dropWhile_dropWhile_imp {p q : Char → Bool}
    (himp : ∀ c, q c = true → p c = true) :
    ∀ (m : List Char), (m.dropWhile q).dropWhile p = m.dropWhile p := by
  intro m
  induction m with
  | nil => rfl
  | cons a m ih =>
    by_cases ha : q a = true
    · simp [List.dropWhile_cons, ha, himp a ha, ih]
    · simp [List.dropWhile_cons, Bool.eq_false_iff.mpr ha]

theorem all_reverse_char {p : Char → Bool} {l : List Char} :
    l.reverse.all p = l.all p := by
  simp [List.all_eq_true]

/-! ### Character-class facts -/

theorem sep_not_nl {c : Char} (h : isSepChar c = true) : isNlChar c = false := by
  simp only [isSepChar, Bool.or_eq_true, beq_iff_eq] at h
  rcases h with rfl | rfl <;> rfl

theorem nl_not_sep {c : Char} (h : isNlChar c = true) : isSepChar c = false := by
  simp only [isNlChar, Bool.or_eq_true, beq_iff_eq] at h
  rcases h with rfl | rfl <;> rfl

theorem sep_not_ws {c : Char} (h : isSepChar c = true) : isJsWsChar c = false := by
  simp only [isSepChar, Bool.or_eq_true, beq_iff_eq] at h
  rcases h with rfl | rfl <;> rfl

theorem nl_ws {c : Char} (h : isNlChar c = true) : isJsWsChar c = true := by
  simp only [isNlChar, Bool.or_eq_true, beq_iff_eq] at h
  rcases h with rfl | rfl <;> rfl

/-! ### The language of the end-anchored regex -/

theorem sepSuffixMatch_of_form {x nl sep tnl : List Char}
    (hx : x.all isNlChar = true) (h1 : nl ≠ []) (h2 : nl.all isNlChar = true)
    (h3 : 3 ≤ sep.length) (h4 : sep.all isSepChar = true)
    (h5 : tnl.all isNlChar = true) :
    sepSuffixMatch (x ++ nl ++ sep ++ tnl) = true := by
  obtain ⟨s0, sep', rfl⟩ : ∃ s0 sep', sep = s0 :: sep' := by
    cases sep with
    | nil => simp at h3
    | cons a t => exact ⟨a, t, rfl⟩
  have hs0 : isSepChar s0 = true := by
    simp only [List.all_cons, Bool.and_eq_true] at h4
    exact h4.1
  have hns0 : isNlChar s0 = false := sep_not_nl hs0
  have hw : (x ++ nl).all isNlChar = true := by
    simp [List.all_append, hx, h2]
  have hrw : x ++ nl ++ s0 :: sep' ++ tnl = (x ++ nl) ++ (s0 :: (sep' ++ tnl)) := by
    simp
  have htk : (x ++ nl ++ s0 :: sep' ++ tnl).takeWhile isNlChar = x ++ nl := by
    rw [hrw, takeWhile_append_all _ hw]
    simp [List.takeWhile_cons, hns0]
  have hdr : (x ++ nl ++ s0 :: sep' ++ tnl).dropWhile isNlChar
      = (s0 :: sep') ++ tnl := by
    rw [hrw, dropWhile_append_all _ hw]
    simp [List.dropWhile_cons, hns0]
  have htk2 : ((s0 :: sep') ++ tnl).takeWhile isSepChar
      = (s0 :: sep') ++ tnl.takeWhile isSepChar := takeWhile_append_all _ h4
  have hdr2 : ((s0 :: sep') ++ tnl).dropWhile isSepChar = tnl.dropWhile isSepChar :=
    dropWhile_append_all _ h4
  have hne : (x ++ nl) ≠ [] := fun hcon => h1 (List.append_eq_nil.mp hcon).2
  simp only [sepSuffixMatch, htk, hdr, htk2, hdr2, Bool.and_eq_true,
    decide_eq_true_eq]
  refine ⟨⟨?_, ?_⟩, ?_⟩
  · cases hxl : x ++ nl with
    | nil => exact absurd hxl hne
    | cons a t => rfl
  · calc 3 ≤ (s0 :: sep').length := h3
      _ ≤ ((s0 :: sep') ++ tnl.takeWhile isSepChar).length := by simp
  · exact all_dropWhile h5

theorem all_nl_of_match_core {nl sep tnl : List Char}
    (h1 : nl ≠ []) (h2 : nl.all isNlChar = true)
    (h3 : 3 ≤ sep.length) (h4 : sep.all isSepChar = true) :
    ∀ x : List Char,
      3 ≤ (((x ++ nl ++ sep ++ tnl).dropWhile isNlChar).takeWhile
        isSepChar).length →
      (((x ++ nl ++ sep ++ tnl).dropWhile isNlChar).dropWhile
        isSepChar).all isNlChar = true →
      x.all isNlChar = true := by
  intro x
  induction x with
  | nil => intro _ _; rfl
  | cons c x' ih =>
    intro hlen hall
    have hcons : (c :: x') ++ nl ++ sep ++ tnl = c :: (x' ++ nl ++ sep ++ tnl) := by
      simp
    rw [hcons] at hlen hall
    by_cases hc : isNlChar c = true
    · rw [List.dropWhile_cons] at hlen hall
      simp only [hc, if_true] at hlen hall
      simp [List.all_cons, hc, ih hlen hall]
    · have hc' : isNlChar c = false := Bool.eq_false_iff.mpr hc
      have hdc : (c :: (x' ++ nl ++ sep ++ tnl)).dropWhile isNlChar
          = c :: (x' ++ nl ++ sep ++ tnl) := by
        simp [List.dropWhile_cons, hc']
      rw [hdc] at hlen hall
      by_cases hsc : isSepChar c = true
      · exfalso
        obtain ⟨n0, nl', rfl⟩ : ∃ n0 nl', nl = n0 :: nl' := by
          cases nl with
          | nil => exact absurd rfl h1
          | cons a t => exact ⟨a, t, rfl⟩
        have hn0 : isNlChar n0 = true := by
          simp only [List.all_cons, Bool.and_eq_true] at h2
          exact h2.1
        have hns : isSepChar n0 = false := nl_not_sep hn0
        have hsplit : x' ++ (n0 :: nl') ++ sep ++ tnl
            = x' ++ n0 :: (nl' ++ sep ++ tnl) := by simp
        rw [List.dropWhile_cons] at hall
        simp only [hsc, if_true] at hall
        rw [hsplit, dropWhile_append_neg hns] at hall
        have hsepnl : sep.all isNlChar = true := by
          simp only [List.all_append, List.all_cons, Bool.and_eq_true] at hall
          tauto
        obtain ⟨s0, sep', rfl⟩ : ∃ s0 sep', sep = s0 :: sep' := by
          cases sep with
          | nil => simp at h3
          | cons a t => exact ⟨a, t, rfl⟩
        have hA : isNlChar s0 = true := by
          simp only [List.all_cons, Bool.and_eq_true] at hsepnl
          exact hsepnl.1
        have hB : isSepChar s0 = true := by
          simp only [List.all_cons, Bool.and_eq_true] at h4
          exact h4.1
        rw [sep_not_nl hB] at hA
        exact Bool.false_ne_true hA
      · have htke : (c :: (x' ++ nl ++ sep ++ tnl)).takeWhile isSepChar = [] := by
          simp [List.takeWhile_cons, Bool.eq_false_iff.mpr hsc]
        rw [htke] at hlen
        simp at hlen

theorem all_nl_of_sepSuffixMatch {x nl sep tnl : List Char}
    (h1 : nl ≠ []) (h2 : nl.all isNlChar = true)
    (h3 : 3 ≤ sep.length) (h4 : sep.all isSepChar = true)
    (hm : sepSuffixMatch (x ++ nl ++ sep ++ tnl) = true) :
    x.all isNlChar = true := by
  simp only [sepSuffixMatch, Bool.and_eq_true, decide_eq_true_eq] at hm
  exact all_nl_of_match_core h1 h2 h3 h4 x hm.1.2 hm.2

/-! ### Trailing-newline trimming -/

theorem rtrimNl_eq_nil {l : List Char} (h : l.all isNlChar = true) :
    rtrimNl l = [] := by
  have hr : l.reverse.all isNlChar = true := by
    rw [all_reverse_char]; exact h
  simp [rtrimNl, dropWhile_all_nil hr]

theorem rtrimNl_cons {c : Char} {p : List Char}
    (h : ¬((c :: p).all isNlChar = true)) :
    rtrimNl (c :: p) = c :: rtrimNl p := by
  by_cases hp : p.all isNlChar = true
  · have hc : isNlChar c = false := by
      cases hcc : isNlChar c
      · rfl
      · exact absurd (by simp [List.all_cons, hcc, hp]) h
    have hr : p.reverse.all isNlChar = true := by
      rw [all_reverse_char]; exact hp
    have hone : ([c] : List Char).dropWhile isNlChar = [c] := by
      simp [List.dropWhile_cons, hc]
    rw [rtrimNl, List.reverse_cons, dropWhile_append_all _ hr, hone,
      rtrimNl_eq_nil hp]
    rfl
  · have hfa : ¬ (∀ a ∈ p, isNlChar a = true) := by
      rw [← List.all_eq_true]; exact hp
    push_neg at hfa
    obtain ⟨a, ha_mem, ha⟩ := hfa
    have ha' : isNlChar a = false := Bool.eq_false_iff.mpr ha
    have ha_rev : a ∈ p.reverse := by rw [List.mem_reverse]; exact ha_mem
    obtain ⟨u, v, huv⟩ := List.append_of_mem ha_rev
    have key : (p.reverse ++ [c]).dropWhile isNlChar
        = p.reverse.dropWhile isNlChar ++ [c] := by
      have e1 : (u ++ a :: v) ++ [c] = u ++ a :: (v ++ [c]) := by simp
      rw [huv, e1, dropWhile_append_neg ha' u (v ++ [c]),
        dropWhile_append_neg ha' u v]
      simp
    rw [rtrimNl, List.reverse_cons, key, rtrimNl]
    simp

/-! ### The sanitizer on inputs ending in a separator block -/

theorem stripTrailingRule_form {nl sep tnl : List Char}
    (h1 : nl ≠ []) (h2 : nl.all isNlChar = true)
    (h3 : 3 ≤ sep.length) (h4 : sep.all isSepChar = true)
    (h5 : tnl.all isNlChar = true) :
    ∀ p : List Char, stripTrailingRule (p ++ nl ++ sep ++ tnl) = rtrimNl p := by
  intro p
  induction p with
  | nil =>
    obtain ⟨n0, nl', hnl⟩ : ∃ n0 nl', nl = n0 :: nl' := by
      cases nl with
      | nil => exact absurd rfl h1
      | cons a t => exact ⟨a, t, rfl⟩
    have hm : sepSuffixMatch ([] ++ nl ++ sep ++ tnl) = true :=
      sepSuffixMatch_of_form rfl h1 h2 h3 h4 h5
    have e : ([] : List Char) ++ nl ++ sep ++ tnl
        = n0 :: (nl' ++ sep ++ tnl) := by simp [hnl]
    rw [e] at hm
    simp only [List.append_assoc] at hm
    rw [e]
    simp [stripTrailingRule, hm, rtrimNl]
  | cons c p' ih =>
    have e : (c :: p') ++ nl ++ sep ++ tnl = c :: (p' ++ nl ++ sep ++ tnl) := by
      simp
    rw [e]
    by_cases hm : sepSuffixMatch (c :: (p' ++ nl ++ sep ++ tnl)) = true
    · have hall : (c :: p').all isNlChar = true := by
        apply all_nl_of_sepSuffixMatch h1 h2 h3 h4
        rw [e]; exact hm
      simp only [List.append_assoc] at hm
      simp [stripTrailingRule, hm, rtrimNl_eq_nil hall]
    · have hnall : ¬((c :: p').all isNlChar = true) := fun hall =>
        hm (by rw [← e]; exact sepSuffixMatch_of_form hall h1 h2 h3 h4 h5)
      simp only [List.append_assoc] at hm ih
      simp [stripTrailingRule, hm, ih, rtrimNl_cons hnall]

theorem jsTrim_rtrimNl (p : List Char) : jsTrim (rtrimNl p) = jsTrim p := by
  have h : (rtrimNl p).reverse = p.reverse.dropWhile isNlChar := by
    simp [rtrimNl]
  rw [jsTrim, h, dropWhile_dropWhile_imp (fun c hc => nl_ws hc), jsTrim]

/-- The value of `defaultSanitize` on any input that ends with a nonempty
line-break run, then three-or-more separator characters, then an optional
line-break run: everything from the line-break run on is removed and the
remaining prefix is trimmed. -/
theorem defaultSanitize_form {nl sep tnl : List Char} (p : List Char)
    (h1 : nl ≠ []) (h2 : nl.all isNlChar = true) (h3 : 3 ≤ sep.length)
    (h4 : sep.all isSepChar = true) (h5 : tnl.all isNlChar = true) :
    defaultSanitize (p ++ nl ++ sep ++ tnl) = jsTrim p := by
  rw [defaultSanitize, stripTrailingRule_form h1 h2 h3 h4 h5 p, jsTrim_rtrimNl]

/-- Trimming an input that ends in a nonempty run of separator characters
keeps that run: only leading whitespace can be removed. -/
theorem jsTrim_append_sepRun {x sep1 : List Char} (hne : sep1 ≠ [])
    (h4 : sep1.all isSepChar = true) :
    jsTrim (x ++ sep1) = x.dropWhile isJsWsChar ++ sep1 := by
  obtain ⟨s0, sep1', rfl⟩ : ∃ s0 t, sep1 = s0 :: t := by
    cases sep1 with
    | nil => exact absurd rfl hne
    | cons a t => exact ⟨a, t, rfl⟩
  rcases List.eq_nil_or_concat (s0 :: sep1') with hcon | ⟨ys, a, hconc⟩
  · exact absurd hcon (by simp)
  · have ha_mem : a ∈ s0 :: sep1' := by rw [hconc]; simp
    have ha_sep : isSepChar a = true := by
      rw [List.all_eq_true] at h4
      exact h4 a ha_mem
    have ha_ws : isJsWsChar a = false := sep_not_ws ha_sep
    have hs0 : isSepChar s0 = true := by
      rw [List.all_eq_true] at h4
      exact h4 s0 (by simp)
    have hs0_ws : isJsWsChar s0 = false := sep_not_ws hs0
    have hrev : (x ++ s0 :: sep1').reverse = a :: (ys.reverse ++ x.reverse) := by
      rw [hconc]
      simp
    have hrt : ((x ++ s0 :: sep1').reverse).dropWhile isJsWsChar
        = (x ++ s0 :: sep1').reverse := by
      rw [hrev]
      simp [List.dropWhile_cons, ha_ws]
    rw [jsTrim, hrt, List.reverse_reverse, dropWhile_append_neg hs0_ws]

/-- After trimming an input ending in a nonempty separator run, the last
character is the last character of that run (in particular a separator). -/
theorem jsTrim_append_sepRun_getLast {x sep1 : List Char} (hne : sep1 ≠ [])
    (h4 : sep1.all isSepChar = true) :
    ∃ c, isSepChar c = true ∧ (jsTrim (x ++ sep1)).getLast? = some c := by
  rcases List.eq_nil_or_concat sep1 with hcon | ⟨ys, a, hconc⟩
  · exact absurd hcon hne
  · refine ⟨a, ?_, ?_⟩
    · rw [List.all_eq_true] at h4
      exact h4 a (by rw [hconc]; simp)
    · rw [jsTrim_append_sepRun hne h4, hconc, List.concat_eq_append,
        show x.dropWhile isJsWsChar ++ (ys ++ [a])
          = (x.dropWhile isJsWsChar ++ ys) ++ [a] from by simp]
      exact List.getLast?_concat _

/-! ### Trace-observation lemmas -/

theorem completeTexts_append (a b : List Event) :
    completeTexts (a ++ b) = completeTexts a ++ completeTexts b := by
  induction a with
  | nil => rfl
  | cons e rest ih => cases e <;> simp [completeTexts, ih]

theorem updateTexts_append (a b : List Event) :
    updateTexts (a ++ b) = updateTexts a ++ updateTexts b := by
  induction a with
  | nil => rfl
  | cons e rest ih => cases e <;> simp [updateTexts, ih]

theorem countRender_append (a b : List Event) :
    countRender (a ++ b) = countRender a + countRender b := by
  induction a with
  | nil => simp [countRender]
  | cons e rest ih => cases e <;> simp [countRender, ih] <;> omega

/-- A state equal to another one on the display-relevant fields shows the
same text. -/
theorem displayShows_congr {s s' : StreamRenderer} {t : List Char}
    (ho : s'.options = s.options) (hn : s'.textNode = s.textNode)
    (hc : s'.container = s.container) (h : displayShows s t) :
    displayShows s' t := by
  simp only [displayShows, ho, hn, hc] at *
  exact h

/-! ### `renderToDOM` specification -/

theorem renderToDOM_spec (s : StreamRenderer) :
    (renderToDOM s).1.textBuffer = s.textBuffer ∧
    (renderToDOM s).1.lastRenderedText = s.lastRenderedText ∧
    (renderToDOM s).1.rafId = s.rafId ∧
    (renderToDOM s).1.isFinished = s.isFinished ∧
    (renderToDOM s).1.options = s.options ∧
    (renderToDOM s).1.rafCounter = s.rafCounter ∧
    (renderToDOM s).1.textNode.isSome = s.textNode.isSome ∧
    completeTexts (renderToDOM s).2 = [] ∧
    updateTexts (renderToDOM s).2 = [] ∧
    countRender (renderToDOM s).2 = 1 ∧
    displayShows (renderToDOM s).1 s.textBuffer := by
  by_cases h : (s.options.useTextNode && s.textNode.isSome) = true
  · have h1 : s.options.useTextNode = true := by
      simp only [Bool.and_eq_true] at h
      exact h.1
    have h2 : s.textNode.isSome = true := by
      simp only [Bool.and_eq_true] at h
      exact h.2
    simp [renderToDOM, h, h1, h2, displayShows, completeTexts, updateTexts,
      countRender]
  · have h' : (s.options.useTextNode && s.textNode.isSome) = false :=
      Bool.eq_false_iff.mpr h
    cases hp : s.options.markdownParser s.textBuffer with
    | ok m =>
      simp [renderToDOM, h', displayShows, completeTexts, updateTexts,
        countRender, hp]
    | error e =>
      simp [renderToDOM, h', displayShows, completeTexts, updateTexts,
        countRender, hp]

/-! ### `cleanup` and `renderFrame` specifications -/

theorem cleanup_spec (s : StreamRenderer) :
    (cleanup s).1.rafId = none ∧
    (cleanup s).1.textBuffer = s.textBuffer ∧
    (cleanup s).1.isFinished = s.isFinished ∧
    (cleanup s).1.options = s.options ∧
    (cleanup s).1.textNode = s.textNode ∧
    (cleanup s).1.container = s.container ∧
    (cleanup s).1.lastRenderedText = s.lastRenderedText ∧
    (cleanup s).2 = [Event.complete s.textBuffer] := by
  by_cases h : s.rafId.isSome = true
  · simp [cleanup, h]
  · have h0 : s.rafId = none := by
      cases hr : s.rafId with
      | none => rfl
      | some k => exact absurd (by rw [hr]; rfl) h
    simp [cleanup, h0]

/-- When the buffer did not change and the presenter is not finished, the
frame callback does nothing but reschedule itself: no render, no callback. -/
theorem renderFrame_unchanged (s : StreamRenderer) (hf : s.isFinished = false)
    (hch : s.textBuffer = s.lastRenderedText) :
    renderFrame s
      = ({ s with rafId := some s.rafCounter,
                  rafCounter := s.rafCounter + 1 }, []) := by
  simp [renderFrame, hch, hf]

/-- When the buffer changed and the presenter is not finished, the frame
callback renders once, updates the snapshot, invokes `onUpdate` once with the
buffer, and reschedules itself. -/
theorem renderFrame_changed_active (s : StreamRenderer)
    (hf : s.isFinished = false) (hch : s.textBuffer ≠ s.lastRenderedText) :
    (renderFrame s).1.textBuffer = s.textBuffer ∧
    (renderFrame s).1.lastRenderedText = s.textBuffer ∧
    (renderFrame s).1.isFinished = false ∧
    (renderFrame s).1.rafId.isSome = true ∧
    (renderFrame s).1.options = s.options ∧
    (renderFrame s).1.textNode.isSome = s.textNode.isSome ∧
    (renderFrame s).2 = (renderToDOM s).2 ++ [Event.update s.textBuffer] ∧
    completeTexts (renderFrame s).2 = [] ∧
    updateTexts (renderFrame s).2 = [s.textBuffer] ∧
    countRender (renderFrame s).2 = 1 ∧
    displayShows (renderFrame s).1 s.textBuffer := by
  obtain ⟨hb, hl, hr, hfi, ho, hc, hn, he1, he2, he3, hd⟩ := renderToDOM_spec s
  have key : renderFrame s
      = ({ (renderToDOM s).1 with
            lastRenderedText := (renderToDOM s).1.textBuffer,
            rafId := some (renderToDOM s).1.rafCounter,
            rafCounter := (renderToDOM s).1.rafCounter + 1 },
         (renderToDOM s).2 ++ [Event.update (renderToDOM s).1.textBuffer]) := by
    simp [renderFrame, hch, hfi, hf]
  rw [key]
  refine ⟨hb, hb, ?_, rfl, ho, hn, by rw [hb], ?_, ?_, ?_, ?_⟩
  · show (renderToDOM s).1.isFinished = false
    rw [hfi, hf]
  · rw [completeTexts_append, he1, hb]
    simp [completeTexts]
  · rw [updateTexts_append, he2, hb]
    simp [updateTexts]
  · rw [countRender_append, he3]
    simp [countRender]
  · exact displayShows_congr rfl rfl rfl hd

/-- Effects of the render + cleanup tail of the terminal frame, applied to a
state `s1` (the state after the change-detection branch). -/
theorem terminalTail_spec (s1 : StreamRenderer) :
    (cleanup (renderToDOM s1).1).1.rafId = none ∧
    (cleanup (renderToDOM s1).1).1.isFinished = s1.isFinished ∧
    (cleanup (renderToDOM s1).1).1.textBuffer = s1.textBuffer ∧
    (cleanup (renderToDOM s1).1).1.textNode.isSome = s1.textNode.isSome ∧
    (cleanup (renderToDOM s1).1).1.options = s1.options ∧
    completeTexts ((renderToDOM s1).2 ++ (cleanup (renderToDOM s1).1).2)
      = [s1.textBuffer] ∧
    updateTexts ((renderToDOM s1).2 ++ (cleanup (renderToDOM s1).1).2) = [] ∧
    countRender ((renderToDOM s1).2 ++ (cleanup (renderToDOM s1).1).2) = 1 ∧
    displayShows (cleanup (renderToDOM s1).1).1 s1.textBuffer := by
  obtain ⟨hb, hl, hr, hfi, ho, hc, hn, he1, he2, he3, hd⟩ := renderToDOM_spec s1
  obtain ⟨cr, cb, cf, co, cn, cc, cl, cev⟩ := cleanup_spec (renderToDOM s1).1
  refine ⟨cr, ?_, ?_, ?_, ?_, ?_, ?_, ?_, ?_⟩
  · rw [cf, hfi]
  · rw [cb, hb]
  · rw [cn]; exact hn
  · rw [co, ho]
  · rw [completeTexts_append, he1, cev, hb]
    simp [completeTexts]
  · rw [updateTexts_append, he2, cev]
    simp [updateTexts]
  · rw [countRender_append, he3, cev]
    simp [countRender]
  · exact displayShows_congr co cn cc hd

/-- The terminal frame: when the presenter is finished, the frame callback
performs the guaranteed final render, cancels the pending frame (entering the
Terminated configuration), and invokes `onComplete` exactly once with the
(already sanitized) buffer, which the display then shows. -/
theorem renderFrame_terminal (s : StreamRenderer) (hf : s.isFinished = true) :
    (renderFrame s).1.rafId = none ∧
    (renderFrame s).1.isFinished = true ∧
    (renderFrame s).1.textBuffer = s.textBuffer ∧
    (renderFrame s).1.textNode.isSome = s.textNode.isSome ∧
    (renderFrame s).1.options = s.options ∧
    completeTexts (renderFrame s).2 = [s.textBuffer] ∧
    updateTexts (renderFrame s).2
      = (if s.textBuffer = s.lastRenderedText then [] else [s.textBuffer]) ∧
    1 ≤ countRender (renderFrame s).2 ∧
    displayShows (renderFrame s).1 s.textBuffer := by
  by_cases hch : s.textBuffer = s.lastRenderedText
  · have key : renderFrame s
        = ((cleanup (renderToDOM s).1).1,
           (renderToDOM s).2 ++ (cleanup (renderToDOM s).1).2) := by
      simp [renderFrame, hch, hf]
    obtain ⟨t1, t2, t3, t4, t5, t6, t7, t8, t9⟩ := terminalTail_spec s
    rw [key]
    exact ⟨t1, by rw [t2, hf], t3, t4, t5, t6, by rw [if_pos hch]; exact t7,
      by rw [t8], t9⟩
  · obtain ⟨hb, hl, hr, hfi, ho, hc, hn, he1, he2, he3, hd⟩ := renderToDOM_spec s
    have key : renderFrame s
        = ((cleanup (renderToDOM { (renderToDOM s).1 with
              lastRenderedText := (renderToDOM s).1.textBuffer }).1).1,
           ((renderToDOM s).2 ++ [Event.update (renderToDOM s).1.textBuffer])
             ++ ((renderToDOM { (renderToDOM s).1 with
                   lastRenderedText := (renderToDOM s).1.textBuffer }).2
               ++ (cleanup (renderToDOM { (renderToDOM s).1 with
                     lastRenderedText := (renderToDOM s).1.textBuffer }).1).2)) := by
      simp [renderFrame, hch, hfi, hf]
    rw [key]
    generalize hB : ({ (renderToDOM s).1 with
      lastRenderedText := (renderToDOM s).1.textBuffer } : StreamRenderer) = B
    obtain ⟨t1, t2, t3, t4, t5, t6, t7, t8, t9⟩ := terminalTail_spec B
    have hBb : B.textBuffer = s.textBuffer := by rw [← hB]; exact hb
    have hBf : B.isFinished = true := by
      rw [← hB]
      show (renderToDOM s).1.isFinished = true
      rw [hfi, hf]
    have hBn : B.textNode.isSome = s.textNode.isSome := by rw [← hB]; exact hn
    have hBo : B.options = s.options := by rw [← hB]; exact ho
    rw [hBb] at t3 t6 t9
    rw [hBf] at t2
    rw [hBn] at t4
    rw [hBo] at t5
    refine ⟨t1, t2, t3, t4, t5, ?_, ?_, ?_, t9⟩
    · rw [completeTexts_append, completeTexts_append, he1, t6]
      simp [completeTexts]
    · rw [updateTexts_append, updateTexts_append, he2, t7, hb, if_neg hch]
      simp [updateTexts]
    · rw [countRender_append, countRender_append, he3, t8]
      simp [countRender]

/-! ### Step-level facts -/

theorem appendChunk_active (c : List Char) (s : StreamRenderer)
    (hf : s.isFinished = false) :
    appendChunk c s = ({ s with textBuffer := s.textBuffer ++ c }, []) := by
  simp [appendChunk, hf]

theorem appendChunk_finished (c : List Char) (s : StreamRenderer)
    (hf : s.isFinished = true) :
    appendChunk c s = (s, [Event.warnLateChunk]) := by
  simp [appendChunk, hf]

theorem finish_not_finished (s : StreamRenderer) (hf : s.isFinished = false) :
    finish s = ({ s with isFinished := true,
                         textBuffer := s.options.sanitize s.textBuffer }, []) := by
  simp [finish, hf]

theorem finish_finished (s : StreamRenderer) (hf : s.isFinished = true) :
    finish s = (s, []) := by
  simp [finish, hf]

theorem destroy_spec (s : StreamRenderer) :
    (destroy s).isFinished = true ∧ (destroy s).rafId = none ∧
    (destroy s).textNode = none ∧ (destroy s).textBuffer = s.textBuffer := by
  by_cases h : s.rafId.isSome = true
  · simp [destroy, h]
  · have h0 : s.rafId = none := by
      cases hr : s.rafId with
      | none => rfl
      | some k => exact absurd (by rw [hr]; rfl) h
    simp [destroy, h, h0]

theorem run_append_steps (a b : List Step) (s : StreamRenderer) :
    run s (a ++ b)
      = ((run (run s a).1 b).1, (run s a).2 ++ (run (run s a).1 b).2) := by
  induction a generalizing s with
  | nil => simp [run]
  | cons st rest ih =>
    simp only [List.cons_append, run, List.append_eq]
    rw [ih (stepRun s st).1]
    simp [List.append_assoc]

theorem run_appends (chunks : List (List Char)) (s : StreamRenderer)
    (hf : s.isFinished = false) :
    run s (chunks.map Step.append)
      = ({ s with textBuffer := s.textBuffer ++ chunks.flatten }, []) := by
  induction chunks generalizing s with
  | nil => simp [run]
  | cons c rest ih =>
    simp only [List.map_cons, run, stepRun, appendChunk_active c s hf]
    rw [ih { s with textBuffer := s.textBuffer ++ c } (by exact hf)]
    simp

/-- Once finished with no scheduled frame (the Terminated configuration),
every step other than `reset` leaves the flags and the buffer unchanged and
does not invoke `onComplete`. -/
theorem step_terminal (s : StreamRenderer) (st : Step)
    (hf : s.isFinished = true) (hraf : s.rafId = none) (hst : st ≠ Step.reset) :
    (stepRun s st).1.isFinished = true ∧ (stepRun s st).1.rafId = none ∧
    (stepRun s st).1.textBuffer = s.textBuffer ∧
    completeTexts (stepRun s st).2 = [] := by
  cases st with
  | append c =>
    rw [show stepRun s (Step.append c) = appendChunk c s from rfl,
      appendChunk_finished c s hf]
    exact ⟨hf, hraf, rfl, rfl⟩
  | finish =>
    rw [show stepRun s Step.finish = finish s from rfl, finish_finished s hf]
    exact ⟨hf, hraf, rfl, rfl⟩
  | frame =>
    simp only [stepRun, hraf]
    simp [hf, completeTexts]
  | destroy =>
    obtain ⟨d1, d2, d3, d4⟩ := destroy_spec s
    exact ⟨d1, d2, d4, rfl⟩
  | reset => exact absurd rfl hst

theorem run_terminal (steps : List Step) : ∀ s : StreamRenderer,
    s.isFinished = true → s.rafId = none → Step.reset ∉ steps →
    (run s steps).1.isFinished = true ∧ (run s steps).1.rafId = none ∧
    (run s steps).1.textBuffer = s.textBuffer ∧
    completeTexts (run s steps).2 = [] := by
  induction steps with
  | nil => intro s hf hraf _; exact ⟨hf, hraf, rfl, rfl⟩
  | cons st rest ih =>
    intro s hf hraf hnr
    have hst : st ≠ Step.reset := fun h => hnr (by rw [h]; exact List.mem_cons_self _ _)
    obtain ⟨a1, a2, a3, a4⟩ := step_terminal s st hf hraf hst
    have hnr' : Step.reset ∉ rest := fun h => hnr (List.mem_cons_of_mem _ h)
    obtain ⟨b1, b2, b3, b4⟩ := ih (stepRun s st).1 a1 a2 hnr'
    refine ⟨b1, b2, ?_, ?_⟩
    · show (run (stepRun s st).1 rest).1.textBuffer = s.textBuffer
      rw [b3, a3]
    · show completeTexts ((stepRun s st).2 ++ (run (stepRun s st).1 rest).2) = []
      rw [completeTexts_append, a4, b4]
      rfl

/-- While active (not finished, frame scheduled), an `append` or `frame` step
keeps the presenter active with a scheduled frame and never invokes
`onComplete`. -/
theorem step_active (s : StreamRenderer) (st : Step)
    (hf : s.isFinished = false) (hraf : s.rafId.isSome = true)
    (h1 : st ≠ Step.finish) (h2 : st ≠ Step.destroy) (h3 : st ≠ Step.reset) :
    (stepRun s st).1.isFinished = false ∧
    (stepRun s st).1.rafId.isSome = true ∧
    completeTexts (stepRun s st).2 = [] := by
  cases st with
  | append c =>
    rw [show stepRun s (Step.append c) = appendChunk c s from rfl,
      appendChunk_active c s hf]
    exact ⟨hf, hraf, rfl⟩
  | finish => exact absurd rfl h1
  | frame =>
    obtain ⟨k, hk⟩ := Option.isSome_iff_exists.mp hraf
    simp only [stepRun, hk]
    by_cases hch : s.textBuffer = s.lastRenderedText
    · rw [renderFrame_unchanged s hf hch]
      exact ⟨hf, rfl, rfl⟩
    · obtain ⟨c1, c2, c3, c4, c5, c6, c7, c8, c9, c10, c11⟩ :=
        renderFrame_changed_active s hf hch
      exact ⟨c3, c4, c8⟩
  | destroy => exact absurd rfl h2
  | reset => exact absurd rfl h3

theorem run_active (steps : List Step) : ∀ s : StreamRenderer,
    s.isFinished = false → s.rafId.isSome = true →
    Step.finish ∉ steps → Step.destroy ∉ steps → Step.reset ∉ steps →
    (run s steps).1.isFinished = false ∧
    (run s steps).1.rafId.isSome = true ∧
    completeTexts (run s steps).2 = [] := by
  induction steps with
  | nil => intro s hf hraf _ _ _; exact ⟨hf, hraf, rfl⟩
  | cons st rest ih =>
    intro s hf hraf hn1 hn2 hn3
    have h1 : st ≠ Step.finish := fun h => hn1 (by rw [h]; exact List.mem_cons_self _ _)
    have h2 : st ≠ Step.destroy := fun h => hn2 (by rw [h]; exact List.mem_cons_self _ _)
    have h3 : st ≠ Step.reset := fun h => hn3 (by rw [h]; exact List.mem_cons_self _ _)
    obtain ⟨a1, a2, a3⟩ := step_active s st hf hraf h1 h2 h3
    obtain ⟨b1, b2, b3⟩ := ih (stepRun s st).1 a1 a2
      (fun h => hn1 (List.mem_cons_of_mem _ h))
      (fun h => hn2 (List.mem_cons_of_mem _ h))
      (fun h => hn3 (List.mem_cons_of_mem _ h))
    refine ⟨b1, b2, ?_⟩
    show completeTexts ((stepRun s st).2 ++ (run (stepRun s st).1 rest).2) = []
    rw [completeTexts_append, a3, b3]
    rfl

theorem step_frame_active_buffer (s : StreamRenderer)
    (hf : s.isFinished = false) :
    (stepRun s Step.frame).1.textBuffer = s.textBuffer ∧
    (stepRun s Step.frame).1.isFinished = false := by
  cases hr : s.rafId with
  | none => simp [stepRun, hr, hf]
  | some k =>
    simp only [stepRun, hr]
    by_cases hch : s.textBuffer = s.lastRenderedText
    · rw [renderFrame_unchanged s hf hch]; exact ⟨rfl, hf⟩

    · obtain ⟨c1, c2, c3, c4, c5, c6, c7, c8, c9, c10, c11⟩ :=
        renderFrame_changed_active s hf hch
      exact ⟨c1, c3⟩

/-- Any interleaving of `append` and `frame` steps from a not-finished state
keeps the presenter unfinished, and the buffer becomes the prior content
followed by the appended chunks in order. -/
theorem run_append_frame (steps : List Step) : ∀ s : StreamRenderer,
    s.isFinished = false →
    (∀ st ∈ steps, (∃ c, st = Step.append c) ∨ st = Step.frame) →
    (run s steps).1.textBuffer = s.textBuffer ++ (appendedChunks steps).flatten ∧
    (run s steps).1.isFinished = false := by
  induction steps with
  | nil => intro s hf _; simp [run, appendedChunks, hf]
  | cons st rest ih =>
    intro s hf hmem
    rcases hmem st (List.mem_cons_self _ _) with ⟨c, rfl⟩ | rfl
    · have hstep : stepRun s (Step.append c)
          = ({ s with textBuffer := s.textBuffer ++ c }, []) :=
        appendChunk_active c s hf
      obtain ⟨b1, b2⟩ := ih { s with textBuffer := s.textBuffer ++ c }
        (by exact hf) (fun st h => hmem st (List.mem_cons_of_mem _ h))
      constructor
      · show (run (stepRun s (Step.append c)).1 rest).1.textBuffer = _
        rw [hstep]
        show (run { s with textBuffer := s.textBuffer ++ c } rest).1.textBuffer = _
        rw [b1]
        simp [appendedChunks]
      · show (run (stepRun s (Step.append c)).1 rest).1.isFinished = false
        rw [hstep]
        exact b2
    · obtain ⟨f1, f2⟩ := step_frame_active_buffer s hf
      obtain ⟨b1, b2⟩ := ih (stepRun s Step.frame).1 f2
        (fun st h => hmem st (List.mem_cons_of_mem _ h))
      constructor
      · show (run (stepRun s Step.frame).1 rest).1.textBuffer = _
        rw [b1, f1]
        simp [appendedChunks]
      · exact b2

theorem mkStreamRenderer_spec (opts : StreamRendererOptions) :
    (mkStreamRenderer opts).isFinished = false ∧
    (mkStreamRenderer opts).rafId = some 0 ∧
    (mkStreamRenderer opts).rafId.isSome = true ∧
    (mkStreamRenderer opts).textBuffer = [] ∧
    (mkStreamRenderer opts).lastRenderedText = [] ∧
    (mkStreamRenderer opts).options = opts ∧
    (mkStreamRenderer opts).textNode
      = (if opts.useTextNode then some [] else none) := by
  by_cases h : opts.useTextNode = true
  · simp [mkStreamRenderer, initializeContainer, startRenderLoop, h]
  · have h' := Bool.eq_false_iff.mpr h
    simp [mkStreamRenderer, initializeContainer, startRenderLoop, h']

/-- From a Sealed configuration (finished, frame still scheduled), a run
without `destroy`/`reset` that contains a `frame` step ends Terminated, keeps
the buffer, and invokes `onComplete` exactly once, with the buffer as
argument. -/
theorem run_sealed_frame (steps : List Step) : ∀ (s : StreamRenderer) (k : Nat),
    s.isFinished = true → s.rafId = some k →
    Step.destroy ∉ steps → Step.reset ∉ steps → Step.frame ∈ steps →
    (run s steps).1.isFinished = true ∧ (run s steps).1.rafId = none ∧
    (run s steps).1.textBuffer = s.textBuffer ∧
    completeTexts (run s steps).2 = [s.textBuffer] := by
  induction steps with
  | nil => intro s k _ _ _ _ hmem; exact absurd hmem (List.not_mem_nil _)
  | cons st rest ih =>
    intro s k hf hraf hnd hnr hmem
    have hnd' : Step.destroy ∉ rest := fun h => hnd (List.mem_cons_of_mem _ h)
    have hnr' : Step.reset ∉ rest := fun h => hnr (List.mem_cons_of_mem _ h)
    cases st with
    | frame =>
      have hstep : stepRun s Step.frame = renderFrame s := by
        simp only [stepRun, hraf]
      obtain ⟨r1, r2, r3, r4, r5, r6, r7, r8, r9⟩ := renderFrame_terminal s hf
      obtain ⟨b1, b2, b3, b4⟩ := run_terminal rest (renderFrame s).1 r2 r1 hnr'
      refine ⟨?_, ?_, ?_, ?_⟩
      · show (run (stepRun s Step.frame).1 rest).1.isFinished = true
        rw [hstep]; exact b1
      · show (run (stepRun s Step.frame).1 rest).1.rafId = none
        rw [hstep]; exact b2
      · show (run (stepRun s Step.frame).1 rest).1.textBuffer = s.textBuffer
        rw [hstep, b3, r3]
      · show completeTexts
            ((stepRun s Step.frame).2 ++ (run (stepRun s Step.frame).1 rest).2)
            = [s.textBuffer]
        rw [hstep, completeTexts_append, r6, b4]
        simp
    | append c =>
      have hstep := appendChunk_finished c s hf
      have hmem' : Step.frame ∈ rest := by
        rcases List.mem_cons.mp hmem with h | h
        · exact absurd h (by simp)
        · exact h
      obtain ⟨b1, b2, b3, b4⟩ := ih s k hf hraf hnd' hnr' hmem'
      refine ⟨?_, ?_, ?_, ?_⟩
      · show (run (stepRun s (Step.append c)).1 rest).1.isFinished = true
        rw [show stepRun s (Step.append c) = appendChunk c s from rfl, hstep]
        exact b1
      · show (run (stepRun s (Step.append c)).1 rest).1.rafId = none
        rw [show stepRun s (Step.append c) = appendChunk c s from rfl, hstep]
        exact b2
      · show (run (stepRun s (Step.append c)).1 rest).1.textBuffer = s.textBuffer
        rw [show stepRun s (Step.append c) = appendChunk c s from rfl, hstep]
        exact b3
      · show completeTexts ((stepRun s (Step.append c)).2
            ++ (run (stepRun s (Step.append c)).1 rest).2) = [s.textBuffer]
        rw [show stepRun s (Step.append c) = appendChunk c s from rfl, hstep,
          completeTexts_append, b4]
        rfl
    | finish =>
      have hstep := finish_finished s hf
      have hmem' : Step.frame ∈ rest := by
        rcases List.mem_cons.mp hmem with h | h
        · exact absurd h (by simp)
        · exact h
      obtain ⟨b1, b2, b3, b4⟩ := ih s k hf hraf hnd' hnr' hmem'
      refine ⟨?_, ?_, ?_, ?_⟩
      · show (run (stepRun s Step.finish).1 rest).1.isFinished = true
        rw [show stepRun s Step.finish = finish s from rfl, hstep]
        exact b1
      · show (run (stepRun s Step.finish).1 rest).1.rafId = none
        rw [show stepRun s Step.finish = finish s from rfl, hstep]
        exact b2
      · show (run (stepRun s Step.finish).1 rest).1.textBuffer = s.textBuffer
        rw [show stepRun s Step.finish = finish s from rfl, hstep]
        exact b3
      · show completeTexts ((stepRun s Step.finish).2
            ++ (run (stepRun s Step.finish).1 rest).2) = [s.textBuffer]
        rw [show stepRun s Step.finish = finish s from rfl, hstep,
          completeTexts_append, b4]
        rfl
    | destroy => exact absurd (List.mem_cons_self _ _) hnd
    | reset => exact absurd (List.mem_cons_self _ _) hnr

/-- As long as `finish` is never called, the presenter is either still active
or was torn down by `destroy` (finished with no scheduled frame), and
`onComplete` is never invoked. -/
theorem step_nofinish_P (s : StreamRenderer) (st : Step)
    (hP : s.isFinished = false ∨ (s.isFinished = true ∧ s.rafId = none))
    (h1 : st ≠ Step.finish) (h3 : st ≠ Step.reset) :
    ((stepRun s st).1.isFinished = false ∨
      ((stepRun s st).1.isFinished = true ∧ (stepRun s st).1.rafId = none)) ∧
    completeTexts (stepRun s st).2 = [] := by
  cases st with
  | append c =>
    rcases hP with hf | ⟨hf, hr⟩
    · rw [show stepRun s (Step.append c) = appendChunk c s from rfl,
        appendChunk_active c s hf]
      exact ⟨Or.inl hf, rfl⟩
    · rw [show stepRun s (Step.append c) = appendChunk c s from rfl,
        appendChunk_finished c s hf]
      exact ⟨Or.inr ⟨hf, hr⟩, rfl⟩
  | finish => exact absurd rfl h1
  | frame =>
    rcases hP with hf | ⟨hf, hr⟩
    · cases hrf : s.rafId with
      | none => simp [stepRun, hrf, hf, completeTexts]
      | some k =>
        simp only [stepRun, hrf]
        by_cases hch : s.textBuffer = s.lastRenderedText
        · rw [renderFrame_unchanged s hf hch]
          exact ⟨Or.inl hf, rfl⟩
        · obtain ⟨c1, c2, c3, c4, c5, c6, c7, c8, c9, c10, c11⟩ :=
            renderFrame_changed_active s hf hch
          exact ⟨Or.inl c3, c8⟩
    · simp [stepRun, hr, hf, completeTexts]
  | destroy =>
    obtain ⟨d1, d2, d3, d4⟩ := destroy_spec s
    exact ⟨Or.inr ⟨d1, d2⟩, rfl⟩
  | reset => exact absurd rfl h3

theorem run_nofinish_P (steps : List Step) : ∀ s : StreamRenderer,
    (s.isFinished = false ∨ (s.isFinished = true ∧ s.rafId = none)) →
    Step.finish ∉ steps → Step.reset ∉ steps →
    ((run s steps).1.isFinished = false ∨
      ((run s steps).1.isFinished = true ∧ (run s steps).1.rafId = none)) ∧
    completeTexts (run s steps).2 = [] := by
  induction steps with
  | nil => intro s hP _ _; exact ⟨hP, rfl⟩
  | cons st rest ih =>
    intro s hP hn1 hn3
    have h1 : st ≠ Step.finish := fun h => hn1 (by rw [h]; exact List.mem_cons_self _ _)
    have h3 : st ≠ Step.reset := fun h => hn3 (by rw [h]; exact List.mem_cons_self _ _)
    obtain ⟨a1, a2⟩ := step_nofinish_P s st hP h1 h3
    obtain ⟨b1, b2⟩ := ih (stepRun s st).1 a1
      (fun h => hn1 (List.mem_cons_of_mem _ h))
      (fun h => hn3 (List.mem_cons_of_mem _ h))
    refine ⟨b1, ?_⟩
    show completeTexts ((stepRun s st).2 ++ (run (stepRun s st).1 rest).2) = []
    rw [completeTexts_append, a2, b2]
    rfl

theorem step_options (s : StreamRenderer) (st : Step) :
    (stepRun s st).1.options = s.options := by
  cases st with
  | append c =>
    by_cases h : s.isFinished = true
    · rw [show stepRun s (Step.append c) = appendChunk c s from rfl,
        appendChunk_finished c s h]
    · rw [show stepRun s (Step.append c) = appendChunk c s from rfl,
        appendChunk_active c s (Bool.eq_false_iff.mpr h)]
  | finish =>
    by_cases h : s.isFinished = true
    · rw [show stepRun s Step.finish = finish s from rfl, finish_finished s h]
    · rw [show stepRun s Step.finish = finish s from rfl,
        finish_not_finished s (Bool.eq_false_iff.mpr h)]
  | frame =>
    cases hr : s.rafId with
    | none => simp [stepRun, hr]
    | some k =>
      simp only [stepRun, hr]
      by_cases h : s.isFinished = true
      · obtain ⟨r1, r2, r3, r4, r5, r6, r7, r8, r9⟩ := renderFrame_terminal s h
        exact r5
      · have h' := Bool.eq_false_iff.mpr h
        by_cases hch : s.textBuffer = s.lastRenderedText
        · rw [renderFrame_unchanged s h' hch]
        · obtain ⟨c1, c2, c3, c4, c5, c6, c7, c8, c9, c10, c11⟩ :=
            renderFrame_changed_active s h' hch
          exact c5
  | destroy =>
    by_cases h : s.rafId.isSome = true <;> simp [stepRun, destroy, h]
  | reset =>
    by_cases h1 : s.rafId.isSome = true <;>
      by_cases h2 : s.options.useTextNode = true <;>
        simp [stepRun, reset, initializeContainer, startRenderLoop, h1, h2]

theorem run_options (steps : List Step) : ∀ s : StreamRenderer,
    (run s steps).1.options = s.options := by
  induction steps with
  | nil => intro s; rfl
  | cons st rest ih =>
    intro s
    show (run (stepRun s st).1 rest).1.options = s.options
    rw [ih (stepRun s st).1, step_options s st]

theorem appendedChunks_append (a b : List Step) :
    appendedChunks (a ++ b) = appendedChunks a ++ appendedChunks b := by
  induction a with
  | nil => rfl
  | cons st rest ih => cases st <;> simp [appendedChunks, ih]

/-! ### Claim theorems -/

/-- C1 counterexample: the default sanitizer does not strip a trailing
separator run that lacks a preceding line break.  After appending `"A---"`
and calling `finish()` under default options, the text is still `"A---"`,
not `"A"`: the regex `[\r\n]+[-=]{3,}[\r\n]*$` requires at least one
preceding line-break character. -/
theorem c1_counterexample :
    getCurrentText (run (mkStreamRenderer defaultOptions)
      [Step.append ("A---".toList), Step.finish]).1 = ("A---".toList) ∧
    ¬ getCurrentText (run (mkStreamRenderer defaultOptions)
      [Step.append ("A---".toList), Step.finish]).1 = ("A".toList) := by
  decide

/-- C1 (amended): the default sanitizer, applied at `finish()`, strips a
trailing run of three-or-more `-`/`=` characters together with the required
nonempty preceding line-break run and the optional following line breaks,
then trims surrounding whitespace; a trailing run with no preceding line
break (such as in `"A---"`) is not stripped, only trimming applies. -/
theorem c1_default_sanitize_at_finish (s : StreamRenderer)
    (p nl sep tnl : List Char)
    (hsan : s.options.sanitize = fun t => defaultSanitize t)
    (hf : s.isFinished = false)
    (hb : s.textBuffer = p ++ nl ++ sep ++ tnl)
    (h1 : nl ≠ []) (h2 : nl.all isNlChar = true)
    (h3 : 3 ≤ sep.length) (h4 : sep.all isSepChar = true)
    (h5 : tnl.all isNlChar = true) :
    getCurrentText (finish s).1 = jsTrim p ∧
    defaultSanitize ("A---".toList) = ("A---".toList) := by
  constructor
  · rw [show getCurrentText (finish s).1 = (finish s).1.textBuffer from rfl,
      finish_not_finished s hf]
    show s.options.sanitize s.textBuffer = jsTrim p
    rw [hsan, hb]
    exact defaultSanitize_form p h1 h2 h3 h4 h5
  · decide

/-- Witness for the amended C1 theorem, on the spec's own example
`"A\n---\n"`, whose sanitized form is `"A"`. -/
theorem c1_default_sanitize_at_finish_witness :
    getCurrentText (finish (run (mkStreamRenderer defaultOptions)
        [Step.append ("A\n---\n".toList)]).1).1
      = jsTrim ("A".toList) ∧
    jsTrim ("A".toList) = ("A".toList) := by
  refine ⟨?_, by decide⟩
  exact (c1_default_sanitize_at_finish _ ("A".toList) ("\n".toList)
    ("---".toList) ("\n".toList) rfl rfl (by decide) (by decide) (by decide)
    (by decide) (by decide) (by decide)).1

/-- C10: the default sanitizer removes exactly one trailing separator block
per application — on an input ending in two separator blocks only the last
one is removed and the result still ends in a separator character — and a
single run may freely mix `-` and `=` (for example `"A\n-=-"` sanitizes to
`"A"`). -/
theorem c10_strips_one_block (p nl1 sep1 nl2 sep2 : List Char)
    (h1 : nl1 ≠ []) (h2 : nl1.all isNlChar = true)
    (h3 : 3 ≤ sep1.length) (h4 : sep1.all isSepChar = true)
    (h5 : nl2 ≠ []) (h6 : nl2.all isNlChar = true)
    (h7 : 3 ≤ sep2.length) (h8 : sep2.all isSepChar = true) :
    defaultSanitize (p ++ nl1 ++ sep1 ++ nl2 ++ sep2)
      = jsTrim (p ++ nl1 ++ sep1) ∧
    (∃ c, isSepChar c = true ∧
      (defaultSanitize (p ++ nl1 ++ sep1 ++ nl2 ++ sep2)).getLast? = some c) ∧
    defaultSanitize ("A\n-=-".toList) = ("A".toList) := by
  have e : p ++ nl1 ++ sep1 ++ nl2 ++ sep2
      = (p ++ nl1 ++ sep1) ++ nl2 ++ sep2 ++ [] := by simp
  have hmain : defaultSanitize (p ++ nl1 ++ sep1 ++ nl2 ++ sep2)
      = jsTrim (p ++ nl1 ++ sep1) := by
    rw [e]
    exact defaultSanitize_form (p ++ nl1 ++ sep1) h5 h6 h7 h8 rfl
  have hsep1ne : sep1 ≠ [] := by
    intro hc
    rw [hc] at h3
    simp at h3
  refine ⟨hmain, ?_, by decide⟩
  rw [hmain]
  exact jsTrim_append_sepRun_getLast hsep1ne h4

/-- Witness for C10 on the two-block input `"A\n---\n---"`, whose sanitized
form is `"A\n---"` (the final block stripped, the earlier one kept). -/
theorem c10_strips_one_block_witness :
    defaultSanitize ("A".toList ++ "\n".toList ++ "---".toList
        ++ "\n".toList ++ "---".toList)
      = jsTrim ("A".toList ++ "\n".toList ++ "---".toList) ∧
    jsTrim ("A".toList ++ "\n".toList ++ "---".toList) = ("A\n---".toList) := by
  refine ⟨?_, by decide⟩
  exact (c10_strips_one_block ("A".toList) ("\n".toList) ("---".toList)
    ("\n".toList) ("---".toList) (by decide) (by decide) (by decide)
    (by decide) (by decide) (by decide) (by decide) (by decide)).1

theorem run_cons (s : StreamRenderer) (st : Step) (rest : List Step) :
    run s (st :: rest)
      = ((run (stepRun s st).1 rest).1,
         (stepRun s st).2 ++ (run (stepRun s st).1 rest).2) := rfl

/-- C2 counterexample: on the normal completion path (append, finish, then
the terminal frame), `cleanup` cancels the frame and `onComplete` fires
exactly once, but the presenter still holds the text-node reference
afterwards: `cleanup` never clears `textNode` (only `destroy()` does). -/
theorem c2_counterexample :
    countComplete (run (mkStreamRenderer defaultOptions)
      [Step.append ("A".toList), Step.finish, Step.frame]).2 = 1 ∧
    (run (mkStreamRenderer defaultOptions)
      [Step.append ("A".toList), Step.finish, Step.frame]).1.rafId = none ∧
    (run (mkStreamRenderer defaultOptions)
      [Step.append ("A".toList), Step.finish, Step.frame]).1.textNode
      = some ("A".toList) := by
  decide

/-- C2 (amended): on entry to Terminated via the normal completion path, the
terminal frame stops the presentation loop (no frame remains scheduled) and
invokes `onComplete` exactly once with the final buffered text, but it does
not release the owned text-content node reference — the presenter holds the
node afterwards iff it held it before.  Only `destroy()` releases it. -/
theorem c2_cleanup_on_terminated (s : StreamRenderer) (k : Nat)
    (hf : s.isFinished = true) (hraf : s.rafId = some k) :
    (stepRun s Step.frame).1.rafId = none ∧
    completeTexts (stepRun s Step.frame).2 = [s.textBuffer] ∧
    countComplete (stepRun s Step.frame).2 = 1 ∧
    (stepRun s Step.frame).1.textNode.isSome = s.textNode.isSome ∧
    (destroy s).textNode = none := by
  have hstep : stepRun s Step.frame = renderFrame s := by
    simp only [stepRun, hraf]
  obtain ⟨r1, r2, r3, r4, r5, r6, r7, r8, r9⟩ := renderFrame_terminal s hf
  obtain ⟨d1, d2, d3, d4⟩ := destroy_spec s
  rw [hstep]
  refine ⟨r1, r6, ?_, r4, d3⟩
  show (completeTexts (renderFrame s).2).length = 1
  rw [r6]
  rfl

/-- Witness for the amended C2 theorem on a concrete completed lifecycle. -/
theorem c2_cleanup_on_terminated_witness :
    (stepRun (run (mkStreamRenderer defaultOptions)
        [Step.append ("A".toList), Step.finish]).1 Step.frame).1.rafId = none ∧
    countComplete (stepRun (run (mkStreamRenderer defaultOptions)
        [Step.append ("A".toList), Step.finish]).1 Step.frame).2 = 1 := by
  have h := c2_cleanup_on_terminated (run (mkStreamRenderer defaultOptions)
    [Step.append ("A".toList), Step.finish]).1 0 rfl rfl
  exact ⟨h.1, h.2.2.1⟩

/-- C3: in any lifecycle from construction without `reset`: if `finish` is
called and a frame fires afterwards (and no `destroy` occurs), `onComplete`
is invoked exactly once, with the sanitized buffer as of the `finish` call;
and if teardown happens via `destroy` with no prior `finish`, `onComplete`
is never invoked. -/
theorem c3_onComplete_exactly_once (opts : StreamRendererOptions)
    (steps u v : List Step) (hnr : Step.reset ∉ steps) :
    (steps = u ++ Step.finish :: v → Step.destroy ∉ steps →
      Step.finish ∉ u → Step.frame ∈ v →
      countComplete (run (mkStreamRenderer opts) steps).2 = 1 ∧
      completeTexts (run (mkStreamRenderer opts) steps).2
        = [opts.sanitize (getCurrentText (run (mkStreamRenderer opts) u).1)]) ∧
    (steps = u ++ Step.destroy :: v → Step.finish ∉ u →
      countComplete (run (mkStreamRenderer opts) steps).2 = 0) := by
  obtain ⟨m1, m2, m3, m4, m5, m6, m7⟩ := mkStreamRenderer_spec opts
  constructor
  · intro heq hnd hnfu hfv
    subst heq
    have hndu : Step.destroy ∉ u := fun h => hnd (List.mem_append_left _ h)
    have hnru : Step.reset ∉ u := fun h => hnr (List.mem_append_left _ h)
    have hndv : Step.destroy ∉ v := fun h =>
      hnd (List.mem_append_right _ (List.mem_cons_of_mem _ h))
    have hnrv : Step.reset ∉ v := fun h =>
      hnr (List.mem_append_right _ (List.mem_cons_of_mem _ h))
    obtain ⟨a1, a2, a3⟩ := run_active u (mkStreamRenderer opts) m1 m3 hnfu hndu hnru
    obtain ⟨k, hk⟩ := Option.isSome_iff_exists.mp a2
    have hopts : (run (mkStreamRenderer opts) u).1.options = opts := by
      rw [run_options]
      exact m6
    have hsb : stepRun (run (mkStreamRenderer opts) u).1 Step.finish
        = ({ (run (mkStreamRenderer opts) u).1 with
              isFinished := true,
              textBuffer := (run (mkStreamRenderer opts) u).1.options.sanitize
                (run (mkStreamRenderer opts) u).1.textBuffer }, []) := by
      rw [show stepRun (run (mkStreamRenderer opts) u).1 Step.finish
          = finish (run (mkStreamRenderer opts) u).1 from rfl,
        finish_not_finished _ a1]
    obtain ⟨f1, f2, f3, f4⟩ := run_sealed_frame v
      ({ (run (mkStreamRenderer opts) u).1 with
          isFinished := true,
          textBuffer := (run (mkStreamRenderer opts) u).1.options.sanitize
            (run (mkStreamRenderer opts) u).1.textBuffer }) k rfl hk hndv hnrv hfv
    rw [run_append_steps, run_cons, hsb]
    constructor
    · show (completeTexts ((run (mkStreamRenderer opts) u).2
          ++ ([] ++ (run ({ (run (mkStreamRenderer opts) u).1 with
                isFinished := true,
                textBuffer := (run (mkStreamRenderer opts) u).1.options.sanitize
                  (run (mkStreamRenderer opts) u).1.textBuffer }) v).2))).length
          = 1
      rw [completeTexts_append, completeTexts_append, a3, f4]
      rfl
    · show completeTexts ((run (mkStreamRenderer opts) u).2
          ++ ([] ++ (run ({ (run (mkStreamRenderer opts) u).1 with
                isFinished := true,
                textBuffer := (run (mkStreamRenderer opts) u).1.options.sanitize
                  (run (mkStreamRenderer opts) u).1.textBuffer }) v).2))
          = [opts.sanitize (getCurrentText (run (mkStreamRenderer opts) u).1)]
      rw [completeTexts_append, completeTexts_append, a3, f4]
      simp [completeTexts, getCurrentText, hopts]
  · intro heq hnfu
    subst heq
    have hnru : Step.reset ∉ u := fun h => hnr (List.mem_append_left _ h)
    have hnrv : Step.reset ∉ v := fun h =>
      hnr (List.mem_append_right _ (List.mem_cons_of_mem _ h))
    obtain ⟨pA, cA⟩ := run_nofinish_P u (mkStreamRenderer opts) (Or.inl m1) hnfu hnru
    obtain ⟨d1, d2, d3, d4⟩ := destroy_spec (run (mkStreamRenderer opts) u).1
    obtain ⟨t1, t2, t3, t4⟩ := run_terminal v
      (destroy (run (mkStreamRenderer opts) u).1) d1 d2 hnrv
    rw [run_append_steps, run_cons]
    show (completeTexts ((run (mkStreamRenderer opts) u).2
        ++ ([] ++ (run (destroy (run (mkStreamRenderer opts) u).1) v).2))).length
        = 0
    rw [completeTexts_append, completeTexts_append, cA, t4]
    rfl

/-- Witness for C3 on concrete runs: a completed lifecycle fires
`onComplete` once; a destroyed lifecycle never fires it, even if late
`finish`/frame steps follow. -/
theorem c3_onComplete_exactly_once_witness :
    countComplete (run (mkStreamRenderer defaultOptions)
      [Step.append ("A".toList), Step.finish, Step.frame]).2 = 1 ∧
    countComplete (run (mkStreamRenderer defaultOptions)
      [Step.append ("A".toList), Step.destroy, Step.finish, Step.frame]).2
      = 0 := by
  constructor
  · exact ((c3_onComplete_exactly_once defaultOptions
      [Step.append ("A".toList), Step.finish, Step.frame]
      [Step.append ("A".toList)] [Step.frame] (by decide)).1 rfl (by decide)
      (by decide) (by decide)).1
  · exact (c3_onComplete_exactly_once defaultOptions
      [Step.append ("A".toList), Step.destroy, Step.finish, Step.frame]
      [Step.append ("A".toList)] [Step.finish, Step.frame] (by decide)).2 rfl
      (by decide)

/-- C4: for every interleaving of `appendChunk` calls and frame callbacks
before `finish()`, `getCurrentText()` equals the concatenation, in call
order, of all chunks appended since construction, the presenter stays
unfinished, and the buffer length is monotonically non-decreasing along the
run. -/
theorem c4_buffer_concatenation (opts : StreamRendererOptions)
    (steps : List Step)
    (hsteps : ∀ st ∈ steps,
      st ≠ Step.finish ∧ st ≠ Step.destroy ∧ st ≠ Step.reset) :
    getCurrentText (run (mkStreamRenderer opts) steps).1
      = (appendedChunks steps).flatten ∧
    (run (mkStreamRenderer opts) steps).1.isFinished = false ∧
    ∀ n : Nat,
      (getCurrentText (run (mkStreamRenderer opts) (steps.take n)).1).length
        ≤ (getCurrentText (run (mkStreamRenderer opts) steps).1).length := by
  have hsteps' : ∀ st ∈ steps, (∃ c, st = Step.append c) ∨ st = Step.frame := by
    intro st h
    obtain ⟨hh1, hh2, hh3⟩ := hsteps st h
    cases st with
    | append c => exact Or.inl ⟨c, rfl⟩
    | frame => exact Or.inr rfl
    | finish => exact absurd rfl hh1
    | destroy => exact absurd rfl hh2
    | reset => exact absurd rfl hh3
  obtain ⟨m1, m2, m3, m4, m5, m6, m7⟩ := mkStreamRenderer_spec opts
  obtain ⟨b1, b2⟩ := run_append_frame steps (mkStreamRenderer opts) m1 hsteps'
  have hmain : getCurrentText (run (mkStreamRenderer opts) steps).1
      = (appendedChunks steps).flatten := by
    show (run (mkStreamRenderer opts) steps).1.textBuffer = _
    rw [b1, m4]
    rfl
  refine ⟨hmain, b2, ?_⟩
  intro n
  have hsub : ∀ st ∈ steps.take n, (∃ c, st = Step.append c) ∨ st = Step.frame :=
    fun st h => hsteps' st (List.take_subset n steps h)
  obtain ⟨b1n, b2n⟩ := run_append_frame (steps.take n) (mkStreamRenderer opts)
    m1 hsub
  have hn : getCurrentText (run (mkStreamRenderer opts) (steps.take n)).1
      = (appendedChunks (steps.take n)).flatten := by
    show (run (mkStreamRenderer opts) (steps.take n)).1.textBuffer = _
    rw [b1n, m4]
    rfl
  rw [hmain, hn]
  have hsplit : appendedChunks steps
      = appendedChunks (steps.take n) ++ appendedChunks (steps.drop n) := by
    rw [← appendedChunks_append, List.take_append_drop]
  rw [hsplit, List.flatten_append, List.length_append]
  exact Nat.le_add_right _ _

/-- Witness for C4 on a concrete interleaving of two appends and a frame. -/
theorem c4_buffer_concatenation_witness :
    getCurrentText (run (mkStreamRenderer defaultOptions)
      [Step.append ("Hel".toList), Step.frame, Step.append ("lo".toList)]).1
      = (appendedChunks [Step.append ("Hel".toList), Step.frame,
          Step.append ("lo".toList)]).flatten ∧
    (appendedChunks [Step.append ("Hel".toList), Step.frame,
      Step.append ("lo".toList)]).flatten = ("Hello".toList) := by
  refine ⟨?_, by decide⟩
  exact (c4_buffer_concatenation defaultOptions
    [Step.append ("Hel".toList), Step.frame, Step.append ("lo".toList)]
    (by decide)).1

/-- C5: any number of appends arriving before the next frame callback
coalesce into at most one render and at most one `onUpdate` in that frame;
when the buffer changed, the single render and update reflect exactly the
prior content followed by all appended chunks; when the buffer is unchanged
relative to the last rendered snapshot, the frame performs no render and no
update; the presenter stays active. -/
theorem c5_frame_coalescing (s : StreamRenderer) (chunks : List (List Char))
    (k : Nat) (hf : s.isFinished = false) (hraf : s.rafId = some k) :
    getCurrentText (run s (chunks.map Step.append)).1
      = s.textBuffer ++ chunks.flatten ∧
    countRender (stepRun (run s (chunks.map Step.append)).1 Step.frame).2 ≤ 1 ∧
    (updateTexts (stepRun (run s (chunks.map Step.append)).1
      Step.frame).2).length ≤ 1 ∧
    (s.textBuffer ++ chunks.flatten = s.lastRenderedText →
      (stepRun (run s (chunks.map Step.append)).1 Step.frame).2 = []) ∧
    (s.textBuffer ++ chunks.flatten ≠ s.lastRenderedText →
      countRender (stepRun (run s (chunks.map Step.append)).1 Step.frame).2
        = 1 ∧
      updateTexts (stepRun (run s (chunks.map Step.append)).1 Step.frame).2
        = [s.textBuffer ++ chunks.flatten] ∧
      displayShows (stepRun (run s (chunks.map Step.append)).1 Step.frame).1
        (s.textBuffer ++ chunks.flatten)) ∧
    (stepRun (run s (chunks.map Step.append)).1 Step.frame).1.isFinished
      = false := by
  have hrun := run_appends chunks s hf
  have hrafB : ({ s with textBuffer := s.textBuffer ++ chunks.flatten }
      : StreamRenderer).rafId = some k := hraf
  have hfB : ({ s with textBuffer := s.textBuffer ++ chunks.flatten }
      : StreamRenderer).isFinished = false := hf
  have hstep : stepRun (run s (chunks.map Step.append)).1 Step.frame
      = renderFrame { s with textBuffer := s.textBuffer ++ chunks.flatten } := by
    rw [hrun]
    show stepRun { s with textBuffer := s.textBuffer ++ chunks.flatten }
      Step.frame = _
    simp only [stepRun, hraf]
  have hbuf : getCurrentText (run s (chunks.map Step.append)).1
      = s.textBuffer ++ chunks.flatten := by
    rw [hrun]
    rfl
  rw [hstep]
  by_cases hch : s.textBuffer ++ chunks.flatten = s.lastRenderedText
  · have hchB : ({ s with textBuffer := s.textBuffer ++ chunks.flatten }
        : StreamRenderer).textBuffer
        = ({ s with textBuffer := s.textBuffer ++ chunks.flatten }
          : StreamRenderer).lastRenderedText := hch
    rw [renderFrame_unchanged _ hfB hchB]
    refine ⟨hbuf, by simp [countRender], by simp [updateTexts],
      fun _ => rfl, fun hne => absurd hch hne, hf⟩
  · obtain ⟨c1, c2, c3, c4, c5, c6, c7, c8, c9, c10, c11⟩ :=
      renderFrame_changed_active
        { s with textBuffer := s.textBuffer ++ chunks.flatten } hfB hch
    refine ⟨hbuf, ?_, ?_, fun heq => absurd heq hch,
      fun _ => ⟨c10, c9, c11⟩, c3⟩
    · rw [c10]
    · rw [c9]
      rfl

/-- Witness for C5: two chunks appended before one frame produce exactly one
update whose payload is their concatenation. -/
theorem c5_frame_coalescing_witness :
    updateTexts (stepRun (run (mkStreamRenderer defaultOptions)
      (["ab".toList, "cd".toList].map Step.append)).1 Step.frame).2
      = [("abcd".toList)] ∧
    countRender (stepRun (run (mkStreamRenderer defaultOptions)
      (["ab".toList, "cd".toList].map Step.append)).1 Step.frame).2 = 1 := by
  have h := c5_frame_coalescing (mkStreamRenderer defaultOptions)
    ["ab".toList, "cd".toList] 0 rfl rfl
  have h5 := h.2.2.2.2.1 (by decide)
  exact ⟨h5.2.1.trans (by decide), h5.1⟩

/-- C6: after `finish()`, the next frame callback performs a guaranteed
final render reflecting the sanitized buffer — no change-detection guard
applies to it — invokes `onComplete` with that text, and transitions the
presenter to Terminated (finished, no frame scheduled). -/
theorem c6_terminal_render (s : StreamRenderer) (k : Nat)
    (hf : s.isFinished = false) (hraf : s.rafId = some k) :
    (stepRun (finish s).1 Step.frame).1.isFinished = true ∧
    (stepRun (finish s).1 Step.frame).1.rafId = none ∧
    1 ≤ countRender (stepRun (finish s).1 Step.frame).2 ∧
    completeTexts (stepRun (finish s).1 Step.frame).2
      = [s.options.sanitize s.textBuffer] ∧
    displayShows (stepRun (finish s).1 Step.frame).1
      (s.options.sanitize s.textBuffer) ∧
    getCurrentText (stepRun (finish s).1 Step.frame).1
      = s.options.sanitize s.textBuffer := by
  have hB : (finish s).1
      = ({ s with
            isFinished := true,
            textBuffer := s.options.sanitize s.textBuffer }
        : StreamRenderer) := by
    rw [finish_not_finished s hf]
  have hstep : stepRun (finish s).1 Step.frame
      = renderFrame
          ({ s with
              isFinished := true,
              textBuffer := s.options.sanitize s.textBuffer }
            : StreamRenderer) := by
    rw [hB]
    show stepRun
        ({ s with
            isFinished := true,
            textBuffer := s.options.sanitize s.textBuffer }
          : StreamRenderer) Step.frame = _
    simp only [stepRun, hraf]
  obtain ⟨r1, r2, r3, r4, r5, r6, r7, r8, r9⟩ := renderFrame_terminal
    ({ s with
        isFinished := true,
        textBuffer := s.options.sanitize s.textBuffer }
      : StreamRenderer) rfl
  rw [hstep]
  exact ⟨r2, r1, r8, r6, r9, r3⟩

/-- Witness for C6: after `append "A"` and one frame, the snapshot equals
the buffer; `finish()` leaves the sanitized buffer equal to the snapshot,
and the terminal frame still renders and completes. -/
theorem c6_terminal_render_witness :
    1 ≤ countRender (stepRun (finish (run (mkStreamRenderer defaultOptions)
        [Step.append ("A".toList), Step.frame]).1).1 Step.frame).2 ∧
    completeTexts (stepRun (finish (run (mkStreamRenderer defaultOptions)
        [Step.append ("A".toList), Step.frame]).1).1 Step.frame).2
      = [(run (mkStreamRenderer defaultOptions)
          [Step.append ("A".toList), Step.frame]).1.options.sanitize
          (run (mkStreamRenderer defaultOptions)
            [Step.append ("A".toList), Step.frame]).1.textBuffer] ∧
    (finish (run (mkStreamRenderer defaultOptions)
        [Step.append ("A".toList), Step.frame]).1).1.textBuffer
      = (finish (run (mkStreamRenderer defaultOptions)
          [Step.append ("A".toList), Step.frame]).1).1.lastRenderedText := by
  have h := c6_terminal_render (run (mkStreamRenderer defaultOptions)
    [Step.append ("A".toList), Step.frame]).1 1 rfl rfl
  exact ⟨h.2.2.1, h.2.2.2.1, by decide⟩

/-- C7: `appendChunk` on a finished presenter — after `finish()` or after
`destroy()` — is a total no-op on the state that reports the misuse with a
single warning and leaves `getCurrentText()` unchanged. -/
theorem c7_append_after_finish (s t : StreamRenderer) (c d : List Char)
    (hf : s.isFinished = true) :
    appendChunk c s = (s, [Event.warnLateChunk]) ∧
    getCurrentText (appendChunk c s).1 = getCurrentText s ∧
    (destroy t).isFinished = true ∧
    appendChunk d (destroy t) = (destroy t, [Event.warnLateChunk]) ∧
    getCurrentText (appendChunk d (destroy t)).1 = getCurrentText t := by
  obtain ⟨d1, d2, d3, d4⟩ := destroy_spec t
  refine ⟨appendChunk_finished c s hf, ?_, d1, appendChunk_finished d _ d1, ?_⟩
  · rw [appendChunk_finished c s hf]
  · rw [appendChunk_finished d _ d1]
    show (destroy t).textBuffer = t.textBuffer
    exact d4

/-- Witness for C7 on a finished and on a destroyed concrete presenter. -/
theorem c7_append_after_finish_witness :
    appendChunk ("x".toList) (run (mkStreamRenderer defaultOptions)
        [Step.finish]).1
      = ((run (mkStreamRenderer defaultOptions) [Step.finish]).1,
         [Event.warnLateChunk]) ∧
    getCurrentText (appendChunk ("y".toList)
        (destroy (mkStreamRenderer defaultOptions))).1
      = getCurrentText (mkStreamRenderer defaultOptions) := by
  have h := c7_append_after_finish
    (run (mkStreamRenderer defaultOptions) [Step.finish]).1
    (mkStreamRenderer defaultOptions) ("x".toList) ("y".toList) rfl
  exact ⟨h.1, h.2.2.2.2⟩

/-- C8: `finish()` is idempotent: applied to an already-finished presenter
it changes nothing and emits nothing — in particular the sanitizer is not
applied a second time — so a run with a duplicated `finish` step has exactly
the same final state and the same event trace (hence the same single
`onComplete`) as the run without it. -/
theorem c8_finish_idempotent (s : StreamRenderer) (rest : List Step) :
    finish (finish s).1 = ((finish s).1, []) ∧
    run (finish s).1 (Step.finish :: rest) = run (finish s).1 rest ∧
    (finish s).1.isFinished = true := by
  have hf1 : (finish s).1.isFinished = true := by
    by_cases h : s.isFinished = true
    · rw [finish_finished s h]
      exact h
    · rw [finish_not_finished s (Bool.eq_false_iff.mpr h)]
  have hfin : finish (finish s).1 = ((finish s).1, []) := finish_finished _ hf1
  refine ⟨hfin, ?_, hf1⟩
  rw [run_cons, show stepRun (finish s).1 Step.finish = finish (finish s).1
    from rfl, hfin]
  simp

/-- C9: in markdown mode, when the parser throws on the current buffer, the
frame that renders it warns, falls back to showing the raw buffer as plain
text on the container, still reports the frame via `onUpdate`, and the loop
keeps running (the presenter stays active with a scheduled frame). -/
theorem c9_markdown_fallback (s : StreamRenderer) (k : Nat) (msg : List Char)
    (hmode : s.options.useTextNode = false)
    (hf : s.isFinished = false) (hraf : s.rafId = some k)
    (herr : s.options.markdownParser s.textBuffer = Except.error msg)
    (hch : s.textBuffer ≠ s.lastRenderedText) :
    (stepRun s Step.frame).1.container = DomContent.plainText s.textBuffer ∧
    Event.warnParseError ∈ (stepRun s Step.frame).2 ∧
    Event.renderFallback s.textBuffer ∈ (stepRun s Step.frame).2 ∧
    updateTexts (stepRun s Step.frame).2 = [s.textBuffer] ∧
    (stepRun s Step.frame).1.isFinished = false ∧
    (stepRun s Step.frame).1.rafId.isSome = true := by
  have hstep : stepRun s Step.frame = renderFrame s := by
    simp only [stepRun, hraf]
  obtain ⟨c1, c2, c3, c4, c5, c6, c7, c8, c9, c10, c11⟩ :=
    renderFrame_changed_active s hf hch
  have hcond : (s.options.useTextNode && s.textNode.isSome) = false := by
    rw [hmode]
    rfl
  have hrtd : (renderToDOM s).2
      = [Event.warnParseError, Event.renderFallback s.textBuffer] := by
    simp [renderToDOM, hcond, herr]
  have hcont : (renderFrame s).1.container
      = DomContent.plainText s.textBuffer := by
    have h := c11
    simp only [displayShows, c5, hmode, herr, Bool.false_and] at h
    simpa using h
  rw [hstep]
  refine ⟨hcont, ?_, ?_, c9, c3, c4⟩
  · rw [c7, hrtd]
    simp
  · rw [c7, hrtd]
    simp

/-- Witness for C9 on a concrete markdown-mode presenter whose parser
always throws. -/
theorem c9_markdown_fallback_witness :
    (stepRun mdErrorState Step.frame).1.container
      = DomContent.plainText ("partial [link](unterminated".toList) ∧
    Event.warnParseError ∈ (stepRun mdErrorState Step.frame).2 ∧
    (stepRun mdErrorState Step.frame).1.isFinished = false := by
  have h := c9_markdown_fallback mdErrorState 0 ("parse error".toList)
    rfl rfl rfl rfl (by decide)
  exact ⟨h.1.trans (by decide), h.2.1, h.2.2.2.2.1⟩
